import Mathlib

/-!
Verification development for `scripts/generate_sitemap.py`.

Python strings are modelled as lists of Unicode code points (`List Nat`).
The relevant parts of `urllib.parse` (`urlparse`, `urlunparse`), which the
script relies on, are embedded below following CPython's algorithm
(scheme / netloc / fragment / query / params splitting).  CPython's
IPv6-bracket validation and control-character sanitisation, which make
`urlparse` raise on certain malformed inputs rather than return a value,
are outside the model; on every input considered here CPython returns
normally.
-/

/-- A Python string: its list of code points. -/
abbrev Url := List Nat

/-- Code points of a string literal, the bridge from readable literals to the model. -/
def s2l (s : String) : Url := s.data.map Char.toNat

/-- Code point of ":" . -/
def chColon : Nat := 58
/-- Code point of "/" . -/
def chSlash : Nat := 47
/-- Code point of "?" . -/
def chQuest : Nat := 63
/-- Code point of "#" . -/
def chHash : Nat := 35
/-- Code point of ";" . -/
def chSemi : Nat := 59

/-- ASCII upper-case letter. -/
def isUpperAscii (c : Nat) : Bool := 65 ≤ c && c ≤ 90

/-- ASCII alphabetic character (this is Python's `ch.isascii() and ch.isalpha()`). -/
def isAlphaAscii (c : Nat) : Bool := (65 ≤ c && c ≤ 90) || (97 ≤ c && c ≤ 122)

/-- ASCII digit. -/
def isDigitAscii (c : Nat) : Bool := 48 ≤ c && c ≤ 57

/-- `str.lower` restricted to ASCII (all characters it is applied to in the
script's URL handling that matter for the claims are ASCII). -/
def lowerAscii (c : Nat) : Nat := if 65 ≤ c ∧ c ≤ 90 then c + 32 else c

/-- The characters allowed in a URL scheme (`urllib.parse.scheme_chars`). -/
def schemeChar (c : Nat) : Bool := isAlphaAscii c || isDigitAscii c || c == 43 || c == 45 || c == 46

/-- `s.startswith(pat)` on code-point lists. -/
def startsWithL : Url → Url → Bool
  | [], _ => true
  | _ :: _, [] => false
  | p :: ps, s :: ss => p == s && startsWithL ps ss

/-- `s.endswith(pat)` on code-point lists. -/
def endsWithL (pat s : Url) : Bool := startsWithL pat.reverse s.reverse

/-- Python's substring test `pat in s`. -/
def containsSub (pat : Url) : Url → Bool
  | [] => startsWithL pat []
  | s :: ss => startsWithL pat (s :: ss) || containsSub pat ss

/-- Split a list at the first occurrence of `c`: returns the part before it and,
when `c` occurs, the part after it.  This is the engine behind Python's
`str.find` / `str.partition` as used by `urlsplit`. -/
def break1 (c : Nat) : Url → Url × Option Url
  | [] => ([], none)
  | a :: as =>
    if a = c then ([], some as)
    else
      match break1 c as with
      | (pre, rest) => (a :: pre, rest)

/-- Split a list at the last occurrence of `c` (Python's `str.rfind`). -/
def splitLast (c : Nat) (l : Url) : Option (Url × Url) :=
  match break1 c l.reverse with
  | (preR, some restR) => some (restR.reverse, preR.reverse)
  | (_, none) => none

/-- `url.partition(c)` as used by `urlsplit` for `#` and `?`: the part before
the first `c` and the part after it (empty when `c` is absent). -/
def splitTail (c : Nat) (l : Url) : Url × Url :=
  match break1 c l with
  | (pre, some suf) => (pre, suf)
  | (_, none) => (l, [])

/-- The scheme-splitting step of `urlsplit`: when the text before the first
`:` is a non-empty run of scheme characters starting with an ASCII letter, it
is the (lower-cased) scheme; otherwise no scheme is extracted. -/
def splitScheme (url : Url) : Url × Url :=
  match break1 chColon url with
  | (pre, some rest) =>
    match pre with
    | [] => ([], url)
    | c :: cs =>
      if isAlphaAscii c && (c :: cs).all schemeChar then ((c :: cs).map lowerAscii, rest)
      else ([], url)
  | (_, none) => ([], url)

/-- A netloc delimiter (`/`, `?` or `#`), ending the netloc in `_splitnetloc`. -/
def netlocDelim (c : Nat) : Bool := c == chSlash || c == chQuest || c == chHash

/-- `_splitnetloc`: when the string starts with `//`, the netloc runs up to the
next `/`, `?` or `#`. -/
def splitNetloc (url : Url) : Url × Url :=
  match url with
  | 47 :: 47 :: rest => (rest.takeWhile (fun c => !netlocDelim c), rest.dropWhile (fun c => !netlocDelim c))
  | _ => ([], url)

/-- `_splitparams`: the params are what follows the first `;` in the last
path segment (searching from the last `/` when the path has one). -/
def splitParams (p : Url) : Url × Url :=
  match splitLast chSlash p with
  | some (pre, lastSeg) =>
    match break1 chSemi lastSeg with
    | (a, some b) => (pre ++ chSlash :: a, b)
    | (_, none) => (p, [])
  | none =>
    match break1 chSemi p with
    | (a, some b) => (a, b)
    | (_, none) => (p, [])

/-- The six components `urlparse` returns. -/
structure UrlParts where
  scheme : Url
  netloc : Url
  path : Url
  params : Url
  query : Url
  fragment : Url
deriving DecidableEq

/-- `urllib.parse.urlparse`: split scheme, then netloc, then fragment, then
query (in that order, as in CPython's `urlsplit`), then split params out of
the path. -/
def urlparseModel (url : Url) : UrlParts :=
  let p1 := splitScheme url
  let p2 := splitNetloc p1.2
  let p3 := splitTail chHash p2.2
  let p4 := splitTail chQuest p3.1
  let p5 := splitParams p4.1
  ⟨p1.1, p2.1, p5.1, p5.2, p4.2, p3.2⟩

/-- `urllib.parse.urlunsplit`. -/
def urlunsplitModel (scheme netloc url query fragment : Url) : Url :=
  let url1 :=
    if netloc ≠ [] ∨ url.take 2 = [chSlash, chSlash] then
      chSlash :: chSlash :: (netloc ++ (if url ≠ [] ∧ url.take 1 ≠ [chSlash] then chSlash :: url else url))
    else url
  let url2 := if scheme ≠ [] then scheme ++ chColon :: url1 else url1
  let url3 := if query ≠ [] then url2 ++ chQuest :: query else url2
  if fragment ≠ [] then url3 ++ chHash :: fragment else url3

/-- `urllib.parse.urlunparse`: rejoin params to the path, then `urlunsplit`. -/
def urlunparseModel (p : UrlParts) : Url :=
  urlunsplitModel p.scheme p.netloc
    (if p.params ≠ [] then p.path ++ chSemi :: p.params else p.path) p.query p.fragment

/-- `normalize_url` from the script: re-serialise the parsed URL with the
fragment replaced by the empty string (everything else kept). -/
def normalize_url (url : Url) : Url :=
  urlunparseModel { urlparseModel url with fragment := [] }

/-- `is_same_origin` from the script: it compares only the `netloc`
components of the two URLs. -/
def is_same_origin (url base_url : Url) : Bool :=
  (urlparseModel url).netloc == (urlparseModel base_url).netloc

/-- The asset extension allow-list of `is_asset_url`. -/
def assetExtensions : List Url :=
  [s2l ".pdf", s2l ".jpg", s2l ".jpeg", s2l ".png", s2l ".gif", s2l ".svg", s2l ".webp", s2l ".ico"]

/-- `is_asset_url` from the script: case-insensitive suffix match of the
parsed path against the asset extension list. -/
def is_asset_url (url : Url) : Bool :=
  let path := ((urlparseModel url).path).map lowerAscii
  assetExtensions.any (fun ext => endsWithL ext path)

/-- The non-HTML extension deny-list of `is_html_url`. -/
def nonHtmlExtensions : List Url :=
  [s2l ".pdf", s2l ".jpg", s2l ".jpeg", s2l ".png", s2l ".gif", s2l ".svg", s2l ".webp", s2l ".ico",
   s2l ".css", s2l ".js", s2l ".json", s2l ".xml", s2l ".txt", s2l ".zip", s2l ".gz"]

/-- `is_html_url` from the script: a URL is a candidate page iff its
(lower-cased) path matches none of the non-HTML extensions. -/
def is_html_url (url : Url) : Bool :=
  let path := ((urlparseModel url).path).map lowerAscii
  !(nonHtmlExtensions.any (fun ext => endsWithL ext path))

/-- The priority / changefreq classification performed inline in `crawl_site`
(lines 196-213 of the script).  It is a pure function of the URL. -/
def classifyOf (url : Url) : ℚ × Url :=
  let p := (urlparseModel url).path
  if p = s2l "/" ∨ p = [] then (1, s2l "daily")
  else if containsSub (s2l "/d/") p ∨ containsSub (s2l "/view/") p then (8/10, s2l "monthly")
  else if containsSub (s2l "/agency/") p ∨ containsSub (s2l "/category/") p then (7/10, s2l "weekly")
  else if is_asset_url url then (3/10, s2l "yearly")
  else (1/2, s2l "monthly")

/-- What the crawl loop consumes from a successful fetch: the (already
converted) `Last-Modified` value when present and parseable, whether the
response's content type declares HTML, and the same-origin links
`extract_links` produces from the body.  Fetching and HTML parsing are the
external collaborators of the script (`requests`, `BeautifulSoup`), so a run
is parameterised by a function `Url → Option Response`; `none` is a fetch
failure (network error, non-2xx, timeout). -/
structure Response where
  lastmod : Option Url
  contentTypeHtml : Bool
  links : List Url
deriving DecidableEq

/-- One value of the `url_metadata` dict: the script stores
`{lastmod, priority, changefreq}` per fetched URL. -/
structure Metadata where
  lastmod : Option Url
  priority : ℚ
  changefreq : Url
deriving DecidableEq

/-- The crawl loop's state: `visited` (a set, kept as a duplicate-free list),
the FIFO `to_visit` deque, the `url_metadata` dict (an insertion-ordered
association list), and `page_count`.  `fetched` is a ghost log recording, in
order, every URL on which `fetch_url` is invoked. -/
structure CrawlState where
  visited : List Url
  to_visit : List Url
  url_metadata : List (Url × Metadata)
  page_count : Nat
  fetched : List Url
deriving DecidableEq

/-- `dict.get` on the metadata association list (keys are unique in every
state the crawl produces). -/
def lookupMeta (u : Url) : List (Url × Metadata) → Option Metadata
  | [] => none
  | (k, v) :: rest => if k = u then some v else lookupMeta u rest

/-- One iteration of the `while to_visit and page_count < max_pages` loop of
`crawl_site`; `none` means the loop condition fails and the loop exits.
The body: pop left, skip if visited, mark visited and count the page, fetch
(on failure `continue`), record metadata with the URL's classification, and
enqueue links not yet visited when the URL and the response look like HTML. -/
def crawlStep (fetch : Url → Option Response) (max_pages : Nat) (s : CrawlState) :
    Option CrawlState :=
  match s.to_visit with
  | [] => none
  | current :: rest =>
    if s.page_count < max_pages then
      if current ∈ s.visited then
        some { s with to_visit := rest }
      else
        let s1 : CrawlState :=
          { visited := s.visited ++ [current], to_visit := rest,
            url_metadata := s.url_metadata, page_count := s.page_count + 1,
            fetched := s.fetched ++ [current] }
        match fetch current with
        | none => some s1
        | some resp =>
          let md : Metadata :=
            { lastmod := resp.lastmod, priority := (classifyOf current).1,
              changefreq := (classifyOf current).2 }
          let s2 := { s1 with url_metadata := s1.url_metadata ++ [(current, md)] }
          some (if is_html_url current && resp.contentTypeHtml then
                  { s2 with to_visit := s2.to_visit ++ resp.links.filter (fun l => l ∉ s2.visited) }
                else s2)
    else none

/-- The `while` loop of `crawl_site`, run to completion from a given state.
Termination: each iteration either fetches a page (raising `page_count`,
which the loop bounds by `max_pages`) or pops an already-visited URL
(shrinking the queue). -/
def crawlLoop (fetch : Url → Option Response) (max_pages : Nat) (s : CrawlState) :
    CrawlState :=
  match h : crawlStep fetch max_pages s with
  | none => s
  | some s' => crawlLoop fetch max_pages s'
termination_by (max_pages - s.page_count, s.to_visit.length)
decreasing_by
  have key : max_pages - s'.page_count < max_pages - s.page_count ∨
      (s'.page_count = s.page_count ∧ s'.to_visit.length < s.to_visit.length) := by
    unfold crawlStep at h
    split at h
    · exact absurd h (by simp)
    · rename_i current rest hv
      split at h
      · split at h
        · right
          cases h
          simp [hv]
        · left
          have hcount : s'.page_count = s.page_count + 1 := by
            split at h
            · cases h; rfl
            · split at h <;> (cases h; rfl)
          omega
      · exact absurd h (by simp)
  rcases key with h1 | ⟨h1, h2⟩
  · exact Prod.Lex.left _ _ h1
  · rw [h1]; exact Prod.Lex.right _ h2

/-- Finitely many iterations of the loop (used to exhibit intermediate
states of a concrete run). -/
def crawlStepsN (fetch : Url → Option Response) (max_pages : Nat) :
    Nat → CrawlState → CrawlState
  | 0, s => s
  | n + 1, s =>
    match crawlStep fetch max_pages s with
    | none => s
    | some s' => crawlStepsN fetch max_pages n s'

/-- The initial crawl state: nothing visited, the normalized seed queued. -/
def initState (base_url : Url) : CrawlState :=
  { visited := [], to_visit := [normalize_url base_url], url_metadata := [],
    page_count := 0, fetched := [] }

/-- The final state of `crawl_site`. -/
def crawlFinal (fetch : Url → Option Response) (base_url : Url) (max_pages : Nat) :
    CrawlState :=
  crawlLoop fetch max_pages (initState base_url)

/-- `crawl_site`: returns the visited set and the metadata map. -/
def crawl_site (fetch : Url → Option Response) (base_url : Url) (max_pages : Nat) :
    List Url × List (Url × Metadata) :=
  ((crawlFinal fetch base_url max_pages).visited,
   (crawlFinal fetch base_url max_pages).url_metadata)

/-- The URLs reachable from the (normalized) seed by following the links of
successfully fetched HTML pages — the pages a crawl with unlimited budget
would discover. -/
inductive Reaches (fetch : Url → Option Response) (root : Url) : Url → Prop
  | root : Reaches fetch root root
  | step {v u : Url} {r : Response} : Reaches fetch root v → fetch v = some r →
      (is_html_url v && r.contentTypeHtml) = true → u ∈ r.links → Reaches fetch root u

/-- `MAX_URLS_PER_SITEMAP`. -/
def MAX_URLS_PER_SITEMAP : Nat := 50000

/-- Python's `<` on strings: code-point lexicographic comparison (`≤` here,
used for `sorted`). -/
def urlLeB : Url → Url → Bool
  | [], _ => true
  | _ :: _, [] => false
  | a :: as, b :: bs => if a < b then true else if a = b then urlLeB as bs else false

/-- `sorted(urls)`: deterministic code-point lexicographic sort. -/
def sortUrls (urls : List Url) : List Url :=
  List.insertionSort (fun a b => urlLeB a b = true) urls

/-- The slicing `[urls[i:i+n] for i in range(0, len(urls), n)]` used by
`generate_sitemap_index` (the guard `n = 0` never arises: the script always
slices by the constant `MAX_URLS_PER_SITEMAP = 50000`). -/
def chunks (n : Nat) (l : List Url) : List (List Url) :=
  if l = [] ∨ n = 0 then [] else l.take n :: chunks n (l.drop n)
termination_by l.length
decreasing_by
  rename_i hcond
  rw [List.length_drop]
  rcases l with _ | ⟨x, xs⟩
  · tauto
  · have : n ≠ 0 := by tauto
    simp only [List.length_cons]
    omega

/-- One `<url>` element as `generate_single_sitemap` serialises it: `<loc>`
always, `<lastmod>` and `<changefreq>` only when present and truthy,
`<priority>` when the metadata holds one. -/
structure SitemapEntry where
  loc : Url
  lastmod : Option Url
  changefreq : Option Url
  priority : Option ℚ
deriving DecidableEq

/-- The entry `generate_single_sitemap` emits for one URL: metadata is looked
up with `dict.get(url, {})`, so a URL absent from the map yields a bare
`<loc>` entry. -/
def sitemapEntryFor (md : List (Url × Metadata)) (u : Url) : SitemapEntry :=
  match lookupMeta u md with
  | none => ⟨u, none, none, none⟩
  | some m =>
    ⟨u,
     (match m.lastmod with
      | some s => if s ≠ [] then some s else none
      | none => none),
     (if m.changefreq ≠ [] then some m.changefreq else none),
     some m.priority⟩

/-- `generate_single_sitemap`: one `<url>` entry per URL, in the given order. -/
def generate_single_sitemap (urls : List Url) (md : List (Url × Metadata)) :
    List SitemapEntry :=
  urls.map (sitemapEntryFor md)

/-- `generate_sitemap`: sort the URLs; one document when they fit the cap,
otherwise one document per 50000-URL slice (the index document lists the
shard files and carries no `<url>` entries itself). -/
def generate_sitemap (urls : List Url) (md : List (Url × Metadata)) :
    List (List SitemapEntry) :=
  let sorted := sortUrls urls
  if sorted.length ≤ MAX_URLS_PER_SITEMAP then [generate_single_sitemap sorted md]
  else (chunks MAX_URLS_PER_SITEMAP sorted).map (fun c => generate_single_sitemap c md)

/-- The number of times a URL occurs in a list (Python's `list.count`,
used to state the exactly-once property of the shards). -/
def countUrl (u : Url) (l : List Url) : Nat := (l.filter (fun x => x = u)).length

/-- The inductive invariant of the crawl loop (stated over the state reached
from the seed `root`): the visited set is duplicate-free, `page_count` counts
it, `fetched` coincides with it (every insertion into `visited` is one
`fetch_url` call), the budget is respected, the metadata map holds exactly
one record per successfully fetched URL, every link of a fetched HTML page is
visited or pending, and the seed is never lost. -/
def CrawlInv (fetch : Url → Option Response) (max_pages : Nat) (root : Url)
    (s : CrawlState) : Prop :=
  s.visited.Nodup ∧
  s.page_count = s.visited.length ∧
  s.fetched = s.visited ∧
  s.page_count ≤ max_pages ∧
  (∀ p ∈ s.url_metadata, fetch p.1 ≠ none) ∧
  (s.url_metadata.map Prod.fst).Nodup ∧
  (∀ k ∈ s.url_metadata.map Prod.fst, k ∈ s.visited) ∧
  (∀ v ∈ s.visited, ∀ r, fetch v = some r → (is_html_url v && r.contentTypeHtml) = true →
      ∀ l ∈ r.links, l ∈ s.visited ∨ l ∈ s.to_visit) ∧
  (root ∈ s.visited ∨ root ∈ s.to_visit)

/-- A fetcher with which every fetch fails. -/
def failFetch : Url → Option Response := fun _ => none

/-- A two-page site: the seed links to `/a`. -/
def twoPageFetch : Url → Option Response := fun u =>
  if u = s2l "https://x.com/" then some ⟨none, true, [s2l "https://x.com/a"]⟩
  else if u = s2l "https://x.com/a" then some ⟨none, true, []⟩
  else none

/-- The link graph of the duplicate-enqueue run: the seed page links to
`/a` and `/b`, and `/a` and `/b` both link to `/c`. -/
def dupFetch : Url → Option Response := fun u =>
  if u = s2l "https://x.com/" then
    some ⟨none, true, [s2l "https://x.com/a", s2l "https://x.com/b"]⟩
  else if u = s2l "https://x.com/a" then some ⟨none, true, [s2l "https://x.com/c"]⟩
  else if u = s2l "https://x.com/b" then some ⟨none, true, [s2l "https://x.com/c"]⟩
  else none

/-! ### Properties of the splitting primitives -/

theorem break1_not_mem (c : Nat) (l : Url) (h : c ∉ l) : break1 c l = (l, none) := by
  induction l with
  | nil => rfl
  | cons a as ih =>
    simp only [List.mem_cons, not_or] at h
    have hne : a ≠ c := fun e => h.1 e.symm
    simp only [break1, if_neg hne, ih h.2]

theorem break1_none_spec (c : Nat) (l p : Url) (h : break1 c l = (p, none)) :
    p = l ∧ c ∉ l := by
  induction l generalizing p with
  | nil =>
    simp only [break1] at h
    injection h with h1 h2
    exact ⟨h1.symm, by simp⟩
  | cons a as ih =>
    simp only [break1] at h
    by_cases hac : a = c
    · rw [if_pos hac] at h; exact absurd h (by simp)
    · rw [if_neg hac] at h
      rcases hb : break1 c as with ⟨pre, rest⟩
      rw [hb] at h
      cases rest with
      | none =>
        simp only [Prod.mk.injEq] at h
        obtain ⟨hp, -⟩ := h
        obtain ⟨h1, h2⟩ := ih pre hb
        subst hp h1
        refine ⟨rfl, ?_⟩
        simp only [List.mem_cons, not_or]
        exact ⟨fun e => hac e.symm, h2⟩
      | some r => exact absurd h (by simp)

theorem break1_recon (c : Nat) (p r : Url) (h : c ∉ p) :
    break1 c (p ++ c :: r) = (p, some r) := by
  induction p with
  | nil => simp [break1]
  | cons a as ih =>
    simp only [List.mem_cons, not_or] at h
    have hne : a ≠ c := fun e => h.1 e.symm
    simp [break1, if_neg hne, ih h.2]

theorem break1_some_spec (c : Nat) (l p r : Url) (h : break1 c l = (p, some r)) :
    l = p ++ c :: r ∧ c ∉ p := by
  induction l generalizing p r with
  | nil => exact absurd h (by simp [break1])
  | cons a as ih =>
    simp only [break1] at h
    by_cases hac : a = c
    · rw [if_pos hac] at h
      simp only [Prod.mk.injEq, Option.some.injEq] at h
      obtain ⟨hp, hr⟩ := h
      subst hp hr hac
      simp
    · rw [if_neg hac] at h
      rcases hb : break1 c as with ⟨pre, rest⟩
      rw [hb] at h
      cases rest with
      | none => exact absurd h (by simp)
      | some r0 =>
        simp only [Prod.mk.injEq, Option.some.injEq] at h
        obtain ⟨hp, hr⟩ := h
        subst hr
        obtain ⟨h1, h2⟩ := ih pre r0 hb
        subst h1
        rw [← hp]
        refine ⟨rfl, ?_⟩
        simp only [List.mem_cons, not_or]
        exact ⟨fun e => hac e.symm, h2⟩

theorem splitTail_not_mem (c : Nat) (l : Url) (h : c ∉ l) : splitTail c l = (l, []) := by
  simp only [splitTail, break1_not_mem c l h]

theorem splitTail_recon (c : Nat) (a b : Url) (h : c ∉ a) :
    splitTail c (a ++ c :: b) = (a, b) := by
  simp only [splitTail, break1_recon c a b h]

theorem splitTail_spec (c : Nat) (l a b : Url) (h : splitTail c l = (a, b)) :
    c ∉ a ∧ (l = a ++ c :: b ∨ (a = l ∧ b = [] ∧ c ∉ l)) := by
  simp only [splitTail] at h
  rcases hb : break1 c l with ⟨pre, rest⟩
  rw [hb] at h
  cases rest with
  | none =>
    simp only [Prod.mk.injEq] at h
    obtain ⟨h1, h2⟩ := h
    obtain ⟨h3, h4⟩ := break1_none_spec c l pre hb
    subst h1 h2 h3
    exact ⟨h4, Or.inr ⟨rfl, rfl, h4⟩⟩
  | some r =>
    simp only [Prod.mk.injEq] at h
    obtain ⟨h1, h2⟩ := h
    obtain ⟨h3, h4⟩ := break1_some_spec c l pre r hb
    subst h1 h2
    exact ⟨h4, Or.inl h3⟩

theorem splitLast_not_mem (c : Nat) (l : Url) (h : c ∉ l) : splitLast c l = none := by
  have : c ∉ l.reverse := by simpa using h
  simp only [splitLast, break1_not_mem c l.reverse this]

theorem splitLast_recon (c : Nat) (pre suf : Url) (h : c ∉ suf) :
    splitLast c (pre ++ c :: suf) = some (pre, suf) := by
  have hrev : (pre ++ c :: suf).reverse = suf.reverse ++ c :: pre.reverse := by
    simp
  have hmem : c ∉ suf.reverse := by simpa using h
  simp only [splitLast, hrev, break1_recon c suf.reverse pre.reverse hmem,
    List.reverse_reverse]

theorem splitLast_some_spec (c : Nat) (l pre suf : Url)
    (h : splitLast c l = some (pre, suf)) : l = pre ++ c :: suf ∧ c ∉ suf := by
  simp only [splitLast] at h
  rcases hb : break1 c l.reverse with ⟨preR, rest⟩
  rw [hb] at h
  cases rest with
  | none => exact absurd h (by simp)
  | some restR =>
    simp only [Option.some.injEq, Prod.mk.injEq] at h
    obtain ⟨h1, h2⟩ := h
    obtain ⟨h3, h4⟩ := break1_some_spec c l.reverse preR restR hb
    constructor
    · have := congrArg List.reverse h3
      simp only [List.reverse_reverse, List.reverse_append, List.reverse_cons] at this
      rw [this, ← h1, ← h2]
      simp
    · rw [← h2]
      simpa using h4

theorem splitLast_none_spec (c : Nat) (l : Url) (h : splitLast c l = none) : c ∉ l := by
  simp only [splitLast] at h
  rcases hb : break1 c l.reverse with ⟨preR, rest⟩
  rw [hb] at h
  cases rest with
  | some restR => exact absurd h (by simp)
  | none =>
    obtain ⟨-, h2⟩ := break1_none_spec c l.reverse preR hb
    simpa using h2

theorem lowerAscii_idem (c : Nat) : lowerAscii (lowerAscii c) = lowerAscii c := by
  simp only [lowerAscii]
  split_ifs <;> omega

theorem lowerAscii_alpha (c : Nat) (h : isAlphaAscii c = true) :
    isAlphaAscii (lowerAscii c) = true := by
  simp only [isAlphaAscii, lowerAscii, Bool.or_eq_true, Bool.and_eq_true,
    decide_eq_true_eq] at h ⊢
  split_ifs <;> omega

theorem lowerAscii_schemeChar (c : Nat) (h : schemeChar c = true) :
    schemeChar (lowerAscii c) = true := by
  simp only [schemeChar, isAlphaAscii, isDigitAscii, lowerAscii, Bool.or_eq_true,
    Bool.and_eq_true, decide_eq_true_eq, beq_iff_eq] at h ⊢
  split_ifs <;> omega

theorem schemeChar_ne_colon (c : Nat) (h : schemeChar c = true) : c ≠ chColon := by
  simp only [schemeChar, isAlphaAscii, isDigitAscii, chColon, Bool.or_eq_true,
    Bool.and_eq_true, decide_eq_true_eq, beq_iff_eq] at h ⊢
  omega

theorem schemeChar_ne_quest (c : Nat) (h : schemeChar c = true) : c ≠ chQuest := by
  simp only [schemeChar, isAlphaAscii, isDigitAscii, chQuest, Bool.or_eq_true,
    Bool.and_eq_true, decide_eq_true_eq, beq_iff_eq] at h ⊢
  omega

theorem takeWhile_recon (p : Nat → Bool) (n r : Url) (hn : ∀ x ∈ n, p x = true)
    (hr : r = [] ∨ ∃ h t, r = h :: t ∧ p h = false) :
    (n ++ r).takeWhile p = n ∧ (n ++ r).dropWhile p = r := by
  induction n with
  | nil =>
    rcases hr with rfl | ⟨h, t, rfl, hph⟩
    · simp
    · simp [List.takeWhile, List.dropWhile, hph]
  | cons a as ih =>
    have hpa : p a = true := hn a (by simp)
    have ih2 := ih (fun x hx => hn x (by simp [hx]))
    simp [List.takeWhile, List.dropWhile, hpa, ih2.1, ih2.2]

theorem splitScheme_eq_of_none (u pre : Url) (hb : break1 chColon u = (pre, none)) :
    splitScheme u = ([], u) := by
  unfold splitScheme
  rw [hb]

theorem splitScheme_eq_of_nil (u rest : Url) (hb : break1 chColon u = ([], some rest)) :
    splitScheme u = ([], u) := by
  unfold splitScheme
  rw [hb]

theorem splitScheme_eq_of_cons (u rest : Url) (c : Nat) (cs : Url)
    (hb : break1 chColon u = (c :: cs, some rest)) :
    splitScheme u =
      if isAlphaAscii c && (c :: cs).all schemeChar then ((c :: cs).map lowerAscii, rest)
      else ([], u) := by
  unfold splitScheme
  rw [hb]

theorem splitScheme_fst_nil (u a r : Url) (h : splitScheme u = (a, r)) (ha : a = []) :
    r = u := by
  subst ha
  rcases hb : break1 chColon u with ⟨pre, rest⟩
  cases rest with
  | none =>
    rw [splitScheme_eq_of_none u pre hb] at h
    injection h with h1 h2; exact h2.symm
  | some r0 =>
    cases pre with
    | nil =>
      rw [splitScheme_eq_of_nil u r0 hb] at h
      injection h with h1 h2; exact h2.symm
    | cons c cs =>
      rw [splitScheme_eq_of_cons u r0 c cs hb] at h
      split at h
      · injection h with h1 h2
        exact absurd h1.symm (by simp)
      · injection h with h1 h2; exact h2.symm

theorem splitScheme_some_spec (u a r : Url) (h : splitScheme u = (a, r)) (hne : a ≠ []) :
    ∃ c cs, u = (c :: cs) ++ chColon :: r ∧ a = (c :: cs).map lowerAscii ∧
      isAlphaAscii c = true ∧ (c :: cs).all schemeChar = true ∧ chColon ∉ (c :: cs) := by
  rcases hb : break1 chColon u with ⟨pre, rest⟩
  cases rest with
  | none =>
    rw [splitScheme_eq_of_none u pre hb] at h
    injection h with h1 _; exact absurd h1.symm hne
  | some r0 =>
    cases pre with
    | nil =>
      rw [splitScheme_eq_of_nil u r0 hb] at h
      injection h with h1 _; exact absurd h1.symm hne
    | cons c cs =>
      rw [splitScheme_eq_of_cons u r0 c cs hb] at h
      split at h
      · rename_i hcond
        injection h with h1 h2
        subst h2
        obtain ⟨hu, hnc⟩ := break1_some_spec chColon u (c :: cs) r0 hb
        simp only [Bool.and_eq_true] at hcond
        exact ⟨c, cs, hu, h1.symm, hcond.1, hcond.2, hnc⟩
      · injection h with h1 _; exact absurd h1.symm hne

theorem splitScheme_recon (a r : Url) (c : Nat) (cs : Url) (hcs : a = c :: cs)
    (halpha : isAlphaAscii c = true) (hall : a.all schemeChar = true)
    (hfix : a.map lowerAscii = a) :
    splitScheme (a ++ chColon :: r) = (a, r) := by
  subst hcs
  have hnc : chColon ∉ (c :: cs) := by
    intro hm
    exact schemeChar_ne_colon chColon (List.all_eq_true.mp hall _ hm) rfl
  rw [splitScheme_eq_of_cons ((c :: cs) ++ chColon :: r) r c cs
    (break1_recon chColon (c :: cs) r hnc)]
  rw [if_pos (by simp only [Bool.and_eq_true]; exact ⟨halpha, hall⟩), hfix]

theorem splitScheme_pos (c : Nat) (cs r : Url) (halpha : isAlphaAscii c = true)
    (hall : (c :: cs).all schemeChar = true) :
    (splitScheme ((c :: cs) ++ chColon :: r)).1 ≠ [] := by
  have hnc : chColon ∉ (c :: cs) := by
    intro hm
    exact schemeChar_ne_colon chColon (List.all_eq_true.mp hall _ hm) rfl
  rw [splitScheme_eq_of_cons ((c :: cs) ++ chColon :: r) r c cs
    (break1_recon chColon (c :: cs) r hnc)]
  rw [if_pos (by simp only [Bool.and_eq_true]; exact ⟨halpha, hall⟩)]
  simp

theorem splitScheme_head_fail (x : Nat) (t : Url) (hx : isAlphaAscii x = false) :
    splitScheme (x :: t) = ([], x :: t) := by
  rcases hb : break1 chColon (x :: t) with ⟨pre, rest⟩
  cases rest with
  | none => exact splitScheme_eq_of_none (x :: t) pre hb
  | some r0 =>
    cases pre with
    | nil => exact splitScheme_eq_of_nil (x :: t) r0 hb
    | cons c cs =>
      obtain ⟨hu, -⟩ := break1_some_spec chColon (x :: t) (c :: cs) r0 hb
      have hcx : c = x := by
        have := congrArg (fun l => l.headD 0) hu
        simpa using this.symm
      subst hcx
      rw [splitScheme_eq_of_cons (c :: t) r0 c cs hb]
      rw [if_neg]
      simp [hx]

theorem splitScheme_fail_extend (u a q' : Url) (hfail : splitScheme u = ([], u))
    (hpre : ∃ t, a ++ t = u) (hq : q' = [] ∨ ∃ qq, q' = chQuest :: qq) :
    splitScheme (a ++ q') = ([], a ++ q') := by
  rcases hs : splitScheme (a ++ q') with ⟨sch, r⟩
  by_cases hsch : sch = []
  · subst hsch
    rw [splitScheme_fst_nil (a ++ q') [] r hs rfl]
  · exfalso
    obtain ⟨c, cs, heq, -, halpha, hall, -⟩ := splitScheme_some_spec (a ++ q') sch r hs hsch
    rcases List.append_eq_append_iff.mp heq.symm with ⟨e, he1, he2⟩ | ⟨e, he1, he2⟩
    · -- a = (c :: cs) ++ e and chColon :: r = e ++ q'
      cases e with
      | nil =>
        simp only [List.nil_append] at he2
        rcases hq with rfl | ⟨qq, rfl⟩
        · exact absurd he2.symm (by simp)
        · have habs : chQuest = chColon := by
            have := congrArg (fun l => l.headD 0) he2
            simpa using this.symm
          simp [chQuest, chColon] at habs
      | cons e0 es =>
        have he0 : e0 = chColon := by
          have h2 := congrArg (fun l => l.headD 0) he2
          simp at h2
          exact h2.symm
        subst he0
        obtain ⟨t, ht⟩ := hpre
        rw [he1] at ht
        have hu : u = (c :: cs) ++ chColon :: (es ++ t) := by
          rw [← ht]; simp
        have hpos := splitScheme_pos c cs (es ++ t) halpha hall
        rw [← hu, hfail] at hpos
        exact hpos rfl
    · -- c :: cs = a ++ e and q' = e ++ chColon :: r: the colon lies inside q'
      rcases hq with rfl | ⟨qq, rfl⟩
      · exact absurd he2 (by simp)
      · have hquest : chQuest ∈ c :: cs ∨ chQuest = chColon := by
          cases e with
          | nil =>
            right
            have := congrArg (fun l => l.headD 0) he2
            simpa using this
          | cons e0 es =>
            left
            have he0 : e0 = chQuest := by
              have := congrArg (fun l => l.headD 0) he2
              simpa using this.symm
            rw [he1, he0]
            simp
        rcases hquest with hm | habs
        · exact schemeChar_ne_quest chQuest (List.all_eq_true.mp hall _ hm) rfl
        · simp [chQuest, chColon] at habs

theorem splitNetloc_no_slashes (l : Url) (h : l.take 2 ≠ [chSlash, chSlash]) :
    splitNetloc l = ([], l) := by
  unfold splitNetloc
  split
  · rename_i rest
    exact absurd (by simp [chSlash]) h
  · rfl

theorem splitNetloc_recon (nl v : Url) (hnl : ∀ x ∈ nl, netlocDelim x = false)
    (hv : v = [] ∨ ∃ h t, v = h :: t ∧ netlocDelim h = true) :
    splitNetloc (chSlash :: chSlash :: (nl ++ v)) = (nl, v) := by
  have hrec := takeWhile_recon (fun c => !netlocDelim c) nl v
    (fun x hx => by simp [hnl x hx])
    (by
      rcases hv with rfl | ⟨h, t, rfl, hh⟩
      · exact Or.inl rfl
      · exact Or.inr ⟨h, t, rfl, by simp [hh]⟩)
  have hl : splitNetloc (47 :: 47 :: (nl ++ v)) =
      ((nl ++ v).takeWhile (fun c => !netlocDelim c),
        (nl ++ v).dropWhile (fun c => !netlocDelim c)) := rfl
  show splitNetloc (47 :: 47 :: (nl ++ v)) = (nl, v)
  rw [hl, hrec.1, hrec.2]

theorem splitNetloc_spec (l nl r : Url) (h : splitNetloc l = (nl, r)) :
    (∀ x ∈ nl, netlocDelim x = false) ∧
      ((l = chSlash :: chSlash :: (nl ++ r) ∧ (r = [] ∨ ∃ c t, r = c :: t ∧ netlocDelim c = true)) ∨
        (nl = [] ∧ r = l ∧ l.take 2 ≠ [chSlash, chSlash])) := by
  by_cases h2 : l.take 2 = [chSlash, chSlash]
  · rcases l with _ | ⟨a, _ | ⟨b, t⟩⟩
    · simp at h2
    · simp at h2
    · simp only [List.take, List.cons.injEq] at h2
      obtain ⟨rfl, rfl, -⟩ := h2
      have hl : splitNetloc (chSlash :: chSlash :: t) =
          (t.takeWhile (fun c => !netlocDelim c), t.dropWhile (fun c => !netlocDelim c)) := by
        rfl
      rw [hl] at h
      injection h with hnl2 hr2
      subst hnl2 hr2
      constructor
      · intro x hx
        have := List.mem_takeWhile_imp hx
        simpa using this
      · left
        constructor
        · rw [List.takeWhile_append_dropWhile]
        · rcases hd : t.dropWhile (fun c => !netlocDelim c) with _ | ⟨c, t2⟩
          · exact Or.inl rfl
          · refine Or.inr ⟨c, t2, rfl, ?_⟩
            have := List.head?_dropWhile_not (fun c => !netlocDelim c) t
            rw [hd] at this
            simp at this
            exact this
  · rw [splitNetloc_no_slashes l h2] at h
    injection h with hnl2 hr2
    subst hnl2 hr2
    exact ⟨by simp, Or.inr ⟨rfl, rfl, h2⟩⟩

theorem splitParams_eq_ss (p pre lastSeg x b : Url)
    (h1 : splitLast chSlash p = some (pre, lastSeg))
    (h2 : break1 chSemi lastSeg = (x, some b)) :
    splitParams p = (pre ++ chSlash :: x, b) := by
  simp only [splitParams, h1, h2]

theorem splitParams_eq_sn (p pre lastSeg x : Url)
    (h1 : splitLast chSlash p = some (pre, lastSeg))
    (h2 : break1 chSemi lastSeg = (x, none)) :
    splitParams p = (p, []) := by
  simp only [splitParams, h1, h2]

theorem splitParams_eq_ns (p x b : Url)
    (h1 : splitLast chSlash p = none)
    (h2 : break1 chSemi p = (x, some b)) :
    splitParams p = (x, b) := by
  simp only [splitParams, h1, h2]

theorem splitParams_eq_nn (p x : Url)
    (h1 : splitLast chSlash p = none)
    (h2 : break1 chSemi p = (x, none)) :
    splitParams p = (p, []) := by
  simp only [splitParams, h1, h2]

theorem splitParams_spec (p a b : Url) (h : splitParams p = (a, b)) :
    splitParams (if b ≠ [] then a ++ chSemi :: b else a) = (a, b) ∧
      ∃ t, (if b ≠ [] then a ++ chSemi :: b else a) ++ t = p := by
  rcases hsl : splitLast chSlash p with _ | ⟨pre, lastSeg⟩
  · -- no slash in p
    have hnsl : chSlash ∉ p := splitLast_none_spec chSlash p hsl
    rcases hbr : break1 chSemi p with ⟨x, rest⟩
    cases rest with
    | none =>
      rw [splitParams_eq_nn p x hsl hbr] at h
      injection h with h1 h2
      subst h1 h2
      rw [if_neg (by simp)]
      exact ⟨splitParams_eq_nn p x hsl hbr, [], by simp⟩
    | some b0 =>
      rw [splitParams_eq_ns p x b0 hsl hbr] at h
      injection h with h1 h2
      subst h1 h2
      obtain ⟨hp, hsx⟩ := break1_some_spec chSemi p x b0 hbr
      have hslx : chSlash ∉ x ∧ chSlash ∉ b0 := by
        rw [hp] at hnsl
        simp only [List.mem_append, List.mem_cons, not_or] at hnsl
        exact ⟨hnsl.1, hnsl.2.2⟩
      by_cases hb : b0 = []
      · subst hb
        rw [if_neg (by simp)]
        constructor
        · exact splitParams_eq_nn x x
            (splitLast_not_mem chSlash x hslx.1) (break1_not_mem chSemi x hsx)
        · exact ⟨[chSemi], by rw [hp]⟩
      · rw [if_pos hb]
        constructor
        · rw [← hp]
          exact splitParams_eq_ns p x b0 hsl hbr
        · exact ⟨[], by rw [hp]; simp⟩
  · -- p = pre ++ / :: lastSeg with no slash in lastSeg
    obtain ⟨hp, hnls⟩ := splitLast_some_spec chSlash p pre lastSeg hsl
    rcases hbr : break1 chSemi lastSeg with ⟨x, rest⟩
    cases rest with
    | none =>
      rw [splitParams_eq_sn p pre lastSeg x hsl hbr] at h
      injection h with h1 h2
      subst h1 h2
      rw [if_neg (by simp)]
      exact ⟨splitParams_eq_sn p pre lastSeg x hsl hbr, [], by simp⟩
    | some b0 =>
      rw [splitParams_eq_ss p pre lastSeg x b0 hsl hbr] at h
      injection h with h1 h2
      subst h1 h2
      obtain ⟨hls, hsx⟩ := break1_some_spec chSemi lastSeg x b0 hbr
      have hslx : chSlash ∉ x ∧ chSlash ∉ b0 := by
        rw [hls] at hnls
        simp only [List.mem_append, List.mem_cons, not_or] at hnls
        exact ⟨hnls.1, hnls.2.2⟩
      by_cases hb : b0 = []
      · subst hb
        rw [if_neg (by simp)]
        constructor
        · have hsl2 : splitLast chSlash (pre ++ chSlash :: x) = some (pre, x) :=
            splitLast_recon chSlash pre x hslx.1
          exact splitParams_eq_sn (pre ++ chSlash :: x) pre x x hsl2
            (break1_not_mem chSemi x hsx)
        · refine ⟨[chSemi], ?_⟩
          rw [hp, hls]
          simp
      · rw [if_pos hb]
        have hpa : (pre ++ chSlash :: x) ++ chSemi :: b0 = p := by
          rw [hp, hls]
          simp
        constructor
        · rw [hpa]
          exact splitParams_eq_ss p pre lastSeg x b0 hsl hbr
        · exact ⟨[], by rw [hpa]; simp⟩

theorem prefix_not_mem (a l : Url) (x : Nat) (hp : ∃ t, a ++ t = l) (h : x ∉ l) :
    x ∉ a := by
  obtain ⟨t, rfl⟩ := hp
  simp only [List.mem_append, not_or] at h
  exact h.1

theorem prefix_trans (a b c : Url) (h1 : ∃ t, a ++ t = b) (h2 : ∃ t, b ++ t = c) :
    ∃ t, a ++ t = c := by
  obtain ⟨t1, rfl⟩ := h1
  obtain ⟨t2, rfl⟩ := h2
  exact ⟨t1 ++ t2, by simp⟩

theorem splitTail_fst_pre (c : Nat) (l a b : Url) (h : splitTail c l = (a, b)) :
    ∃ t, a ++ t = l := by
  obtain ⟨-, hcase⟩ := splitTail_spec c l a b h
  rcases hcase with hl | ⟨rfl, -, -⟩
  · exact ⟨c :: b, hl.symm⟩
  · exact ⟨[], by simp⟩

theorem splitTail_snd_mem (c : Nat) (l a b : Url) (h : splitTail c l = (a, b)) :
    ∀ x ∈ b, x ∈ l := by
  obtain ⟨-, hcase⟩ := splitTail_spec c l a b h
  rcases hcase with hl | ⟨-, rfl, -⟩
  · intro x hx
    rw [hl]
    simp [hx]
  · intro x hx
    simp at hx

theorem map_lower_fixed (l : Url) : (l.map lowerAscii).map lowerAscii = l.map lowerAscii := by
  rw [List.map_map]
  apply List.map_congr_left
  intro x _
  exact lowerAscii_idem x

theorem scheme_lowered_recon (c : Nat) (cs r1 : Url) (halpha : isAlphaAscii c = true)
    (hall : (c :: cs).all schemeChar = true) :
    splitScheme ((c :: cs).map lowerAscii ++ chColon :: r1) = ((c :: cs).map lowerAscii, r1) := by
  apply splitScheme_recon _ _ (lowerAscii c) (cs.map lowerAscii) (by simp)
  · exact lowerAscii_alpha c halpha
  · rw [List.all_eq_true]
    intro x hx
    simp only [List.mem_map] at hx
    obtain ⟨y, hy, rfl⟩ := hx
    exact lowerAscii_schemeChar y (List.all_eq_true.mp hall _ hy)
  · exact map_lower_fixed (c :: cs)

theorem urlparse_normalize (u : Url) :
    urlparseModel (normalize_url u) = { urlparseModel u with fragment := [] } := by
  rcases hs : splitScheme u with ⟨sch, u1⟩
  rcases hn : splitNetloc u1 with ⟨nl, u2⟩
  rcases hf : splitTail chHash u2 with ⟨u3, fr⟩
  rcases hq : splitTail chQuest u3 with ⟨pq, q⟩
  rcases hp : splitParams pq with ⟨pp, pr⟩
  have hparse : urlparseModel u = ⟨sch, nl, pp, pr, q, fr⟩ := by
    simp only [urlparseModel, hs, hn, hf, hq, hp]
  obtain ⟨hPrec, hPpre⟩ := splitParams_spec pq pp pr hp
  obtain ⟨hnlchars, hncase⟩ := splitNetloc_spec u1 nl u2 hn
  obtain ⟨hnoq_pq, hqcase⟩ := splitTail_spec chQuest u3 pq q hq
  obtain ⟨hnohash_u3, hfcase⟩ := splitTail_spec chHash u2 u3 fr hf
  set pa : Url := if pr ≠ [] then pp ++ chSemi :: pr else pp with hpadef
  set qp : Url := if q ≠ [] then chQuest :: q else [] with hqpdef
  set r2 : Url := pa ++ qp with hr2def
  -- prefix chains
  have hpre_pq_u3 : ∃ t, pq ++ t = u3 := splitTail_fst_pre chQuest u3 pq q hq
  have hpre_u3_u2 : ∃ t, u3 ++ t = u2 := splitTail_fst_pre chHash u2 u3 fr hf
  have hpre_pa_u2 : ∃ t, pa ++ t = u2 :=
    prefix_trans _ _ _ (prefix_trans _ _ _ hPpre hpre_pq_u3) hpre_u3_u2
  -- character facts
  have hnohash_pa : chHash ∉ pa :=
    prefix_not_mem _ _ _ (prefix_trans _ _ _ hPpre hpre_pq_u3) hnohash_u3
  have hnoq_pa : chQuest ∉ pa := prefix_not_mem _ _ _ hPpre hnoq_pq
  have hnohash_q : chHash ∉ q := fun hx =>
    hnohash_u3 (splitTail_snd_mem chQuest u3 pq q hq chHash hx)
  have hnohash_r2 : chHash ∉ r2 := by
    rw [hr2def]
    simp only [List.mem_append, not_or]
    refine ⟨hnohash_pa, ?_⟩
    rw [hqpdef]
    split
    · simp only [List.mem_cons, not_or]
      exact ⟨by simp [chHash, chQuest], hnohash_q⟩
    · simp
  -- the head of `pa` is a slash whenever the netloc branch of unsplit fires
  have hpa_head : (nl ≠ [] ∨ pa.take 2 = [chSlash, chSlash]) →
      pa = [] ∨ ∃ t, pa = chSlash :: t := by
    intro hcond
    rcases hpa0 : pa with _ | ⟨p0, ps⟩
    · exact Or.inl rfl
    · right
      refine ⟨ps, ?_⟩
      rcases hcond with hnl | htake
    -- netloc nonempty: the structural case of splitNetloc holds and u2 starts with a delimiter
      · rcases hncase with ⟨hu1, hu2⟩ | ⟨hnl0, -, -⟩
        · obtain ⟨t, hpt⟩ := hpre_pa_u2
          rw [hpa0] at hpt
          rcases hu2 with rfl | ⟨c, t2, hc, hcd⟩
          · exact absurd hpt.symm (by simp)
          · have hp0 : p0 = c := by
              rw [hc] at hpt
              have := congrArg (fun l => l.headD 0) hpt
              simpa using this
            subst hp0
            have hne1 : p0 ≠ chQuest := by
              intro hx
              apply hnoq_pa
              rw [hpa0, hx]
              simp
            have hne2 : p0 ≠ chHash := by
              intro hx
              apply hnohash_pa
              rw [hpa0, hx]
              simp
            simp only [netlocDelim, Bool.or_eq_true, beq_iff_eq] at hcd
            rcases hcd with (h1 | h1) | h1
            · rw [h1]
            · exact absurd h1 hne1
            · exact absurd h1 hne2
        · exact absurd hnl0 hnl
      · rw [hpa0] at htake
        rcases ps with _ | ⟨p1, ps2⟩
        · simp at htake
        · simp only [List.take, List.cons.injEq] at htake
          rw [htake.1]
  -- the inner slash-prepending of urlunsplit never fires for parsed parts
  have hV : (nl ≠ [] ∨ pa.take 2 = [chSlash, chSlash]) →
      (if pa ≠ [] ∧ pa.take 1 ≠ [chSlash] then chSlash :: pa else pa) = pa := by
    intro hcond
    rcases hpa_head hcond with hpa0 | ⟨t, hpat⟩
    · rw [if_neg (by simp [hpa0])]
    · rw [if_neg (by simp [hpat])]
  -- reparsing the tail: fragment, query, params
  have hF2 : splitTail chHash r2 = (r2, []) := splitTail_not_mem chHash r2 hnohash_r2
  have hQ2 : splitTail chQuest r2 = (pa, q) := by
    rw [hr2def, hqpdef]
    by_cases hq0 : q = []
    · subst hq0
      rw [if_neg (by simp)]
      rw [List.append_nil]
      exact splitTail_not_mem chQuest pa hnoq_pa
    · rw [if_pos hq0]
      exact splitTail_recon chQuest pa q hnoq_pa
  have hP2 : splitParams pa = (pp, pr) := hPrec
  -- the emitted string, in the shape scheme? ++ (url1 ++ qp)
  have hqp3 : ∀ w : Url, (if q ≠ [] then w ++ chQuest :: q else w) = w ++ qp := by
    intro w
    rw [hqpdef]
    by_cases hq0 : q = []
    · subst hq0
      rw [if_neg (by simp), if_neg (by simp), List.append_nil]
    · rw [if_pos hq0, if_pos hq0]
  have hnorm : normalize_url u =
      (if sch ≠ [] then
        sch ++ chColon ::
          ((if nl ≠ [] ∨ pa.take 2 = [chSlash, chSlash] then
              chSlash :: chSlash ::
                (nl ++ (if pa ≠ [] ∧ pa.take 1 ≠ [chSlash] then chSlash :: pa else pa))
            else pa) ++ qp)
      else
        (if nl ≠ [] ∨ pa.take 2 = [chSlash, chSlash] then
            chSlash :: chSlash ::
              (nl ++ (if pa ≠ [] ∧ pa.take 1 ≠ [chSlash] then chSlash :: pa else pa))
          else pa) ++ qp) := by
    rw [normalize_url, hparse]
    simp only [urlunparseModel, urlunsplitModel]
    rw [← hpadef]
    by_cases hsch0 : sch = [] <;> by_cases hq0 : q = [] <;>
      simp [hsch0, hq0, hqpdef, List.append_assoc]
  -- close the goal given the reparse of the scheme-free remainder
  have hmain : ∀ r1 : Url,
      (sch = [] → splitScheme r1 = ([], r1)) →
      splitNetloc r1 = (nl, r2) →
      (if sch ≠ [] then sch ++ chColon :: r1 else r1) = normalize_url u →
      urlparseModel (normalize_url u) = { urlparseModel u with fragment := [] } := by
    intro r1 hS0 hN2 hform
    have hS2 : splitScheme (normalize_url u) = (sch, r1) := by
      rw [← hform]
      by_cases hsch0 : sch = []
      · have hS0x := hS0 hsch0
        subst hsch0
        rw [if_neg (by simp)]
        exact hS0x
      · rw [if_pos hsch0]
        obtain ⟨c, cs, -, hmapeq, halpha, hall, -⟩ :=
          splitScheme_some_spec u sch u1 hs hsch0
        rw [hmapeq]
        exact scheme_lowered_recon c cs r1 halpha hall
    have : urlparseModel (normalize_url u) = ⟨sch, nl, pp, pr, q, []⟩ := by
      simp only [urlparseModel, hS2, hN2, hF2, hQ2, hP2]
    rw [this, hparse]
  -- first fix the scheme-hypothesis: only needed when no scheme was parsed
  apply hmain ((if nl ≠ [] ∨ pa.take 2 = [chSlash, chSlash] then
      chSlash :: chSlash ::
        (nl ++ (if pa ≠ [] ∧ pa.take 1 ≠ [chSlash] then chSlash :: pa else pa))
    else pa) ++ qp)
  · -- the scheme-free remainder extracts no scheme
    intro hsch0
    have hu1eq : u1 = u := splitScheme_fst_nil u sch u1 hs hsch0
    have hsfail : splitScheme u = ([], u) := by rw [hs, hsch0, hu1eq]
    by_cases hFIX : nl ≠ [] ∨ pa.take 2 = [chSlash, chSlash]
    · rw [if_pos hFIX, hV hFIX]
      have hassoc : (chSlash :: chSlash :: (nl ++ pa)) ++ qp =
          chSlash :: (chSlash :: (nl ++ pa) ++ qp) := by simp
      rw [hassoc]
      exact splitScheme_head_fail chSlash _ (by decide)
    · rw [if_neg hFIX]
      push_neg at hFIX
      rcases hncase with ⟨hu1struct, hu2head⟩ | ⟨-, hu2u1, -⟩
      · -- empty netloc split from a `//` prefix: the path starts with a delimiter
        rcases hpa0 : pa with _ | ⟨p0, ps⟩
        · rw [List.nil_append, hqpdef]
          by_cases hq0 : q = []
          · rw [if_neg (by simp [hq0])]
            rfl
          · rw [if_pos hq0]
            exact splitScheme_head_fail chQuest q (by decide)
        · obtain ⟨t, hpt⟩ := hpre_pa_u2
          rw [hpa0] at hpt
          have hp0 : p0 = chSlash := by
            rcases hu2head with rfl | ⟨c, t2, hc, hcd⟩
            · exact absurd hpt (by simp)
            · have hp0c : p0 = c := by
                rw [hc] at hpt
                have := congrArg (fun l => l.headD 0) hpt
                simpa using this
              subst hp0c
              have hne1 : p0 ≠ chQuest := by
                intro hx
                exact hnoq_pa (by rw [hpa0, hx]; simp)
              have hne2 : p0 ≠ chHash := by
                intro hx
                exact hnohash_pa (by rw [hpa0, hx]; simp)
              simp only [netlocDelim, Bool.or_eq_true, beq_iff_eq] at hcd
              rcases hcd with (h1 | h1) | h1
              · exact h1
              · exact absurd h1 hne1
              · exact absurd h1 hne2
          rw [hp0]
          exact splitScheme_head_fail chSlash _ (by decide)
      · -- no netloc was split: the path with params is a literal prefix of `u`
        apply splitScheme_fail_extend u pa qp hsfail
        · obtain ⟨t, ht⟩ := hpre_pa_u2
          exact ⟨t, by rw [ht, hu2u1, hu1eq]⟩
        · rw [hqpdef]
          by_cases hq0 : q = []
          · rw [if_neg (by simp [hq0])]
            exact Or.inl rfl
          · rw [if_pos hq0]
            exact Or.inr ⟨q, rfl⟩
  · -- the netloc reparses
    by_cases hFIX : nl ≠ [] ∨ pa.take 2 = [chSlash, chSlash]
    · rw [if_pos hFIX, hV hFIX]
      have hassoc : (chSlash :: chSlash :: (nl ++ pa)) ++ qp =
          chSlash :: chSlash :: (nl ++ r2) := by
        rw [hr2def]
        simp
      rw [hassoc]
      apply splitNetloc_recon nl r2 hnlchars
      rcases hpa_head hFIX with hpa0 | ⟨t, hpat⟩
      · rw [hr2def, hpa0, List.nil_append, hqpdef]
        by_cases hq0 : q = []
        · rw [if_neg (by simp [hq0])]
          exact Or.inl rfl
        · rw [if_pos hq0]
          exact Or.inr ⟨chQuest, q, rfl, by decide⟩
      · rw [hr2def, hpat]
        exact Or.inr ⟨chSlash, t ++ qp, by simp, by decide⟩
    · rw [if_neg hFIX]
      push_neg at hFIX
      obtain ⟨hnl0, htake⟩ := hFIX
      rw [← hr2def, hnl0]
      apply splitNetloc_no_slashes
      rw [hr2def]
      rcases hpa0 : pa with _ | ⟨p0, ps⟩
      · rw [List.nil_append, hqpdef]
        by_cases hq0 : q = []
        · rw [if_neg (by simp [hq0])]
          simp
        · rw [if_pos hq0]
          rcases q with _ | ⟨q0, qs⟩ <;> simp [chSlash, chQuest]
      · rcases ps with _ | ⟨p1, ps2⟩
        · rw [hqpdef]
          by_cases hq0 : q = []
          · rw [if_neg (by simp [hq0])]
            simp
          · rw [if_pos hq0]
            simp [chSlash, chQuest]
        · rw [hpa0] at htake
          intro hcon
          apply htake
          simp only [List.cons_append, List.take] at hcon ⊢
          exact hcon
  · exact hnorm.symm

/-! ### Properties of the crawl loop -/

theorem crawlLoop_none (fetch : Url → Option Response) (max_pages : Nat) (s : CrawlState)
    (h : crawlStep fetch max_pages s = none) : crawlLoop fetch max_pages s = s := by
  unfold crawlLoop
  rw [h]

theorem crawlLoop_some (fetch : Url → Option Response) (max_pages : Nat) (s s2 : CrawlState)
    (h : crawlStep fetch max_pages s = some s2) :
    crawlLoop fetch max_pages s = crawlLoop fetch max_pages s2 := by
  conv_lhs => rw [crawlLoop]
  rw [h]

theorem crawlLoop_inv (fetch : Url → Option Response) (max_pages : Nat)
    (P : CrawlState → Prop)
    (hstep : ∀ s s2, crawlStep fetch max_pages s = some s2 → P s → P s2) :
    ∀ s, P s → P (crawlLoop fetch max_pages s) := by
  intro s
  induction s using crawlLoop.induct fetch max_pages with
  | case1 s h =>
    rw [crawlLoop_none fetch max_pages s h]
    exact id
  | case2 s s2 h ih =>
    intro hp
    rw [crawlLoop_some fetch max_pages s s2 h]
    exact ih (hstep s s2 h hp)

theorem crawlLoop_final (fetch : Url → Option Response) (max_pages : Nat) :
    ∀ s, crawlStep fetch max_pages (crawlLoop fetch max_pages s) = none := by
  intro s
  induction s using crawlLoop.induct fetch max_pages with
  | case1 s h =>
    rw [crawlLoop_none fetch max_pages s h]
    exact h
  | case2 s s2 h ih =>
    rw [crawlLoop_some fetch max_pages s s2 h]
    exact ih

theorem crawlStep_none_spec (fetch : Url → Option Response) (max_pages : Nat)
    (s : CrawlState) (h : crawlStep fetch max_pages s = none) :
    s.to_visit = [] ∨ max_pages ≤ s.page_count := by
  unfold crawlStep at h
  split at h
  · left
    assumption
  · split at h
    · split at h
      · exact absurd h (by simp)
      · split at h
        · exact absurd h (by simp)
        · exact absurd h (by simp)
    · rename_i hc
      right
      omega

theorem crawlStep_some_spec (fetch : Url → Option Response) (max_pages : Nat)
    (s s2 : CrawlState) (h : crawlStep fetch max_pages s = some s2) :
    ∃ current rest, s.to_visit = current :: rest ∧ s.page_count < max_pages ∧
      ((current ∈ s.visited ∧ s2 = { s with to_visit := rest })
      ∨ (current ∉ s.visited ∧ fetch current = none ∧
          s2 = ⟨s.visited ++ [current], rest, s.url_metadata, s.page_count + 1,
            s.fetched ++ [current]⟩)
      ∨ (current ∉ s.visited ∧ ∃ resp, fetch current = some resp ∧
          (((is_html_url current && resp.contentTypeHtml) = true ∧
            s2 = ⟨s.visited ++ [current],
              rest ++ resp.links.filter (fun l => l ∉ s.visited ++ [current]),
              s.url_metadata ++
                [(current, ⟨resp.lastmod, (classifyOf current).1, (classifyOf current).2⟩)],
              s.page_count + 1, s.fetched ++ [current]⟩)
          ∨ (¬(is_html_url current && resp.contentTypeHtml) = true ∧
            s2 = ⟨s.visited ++ [current], rest,
              s.url_metadata ++
                [(current, ⟨resp.lastmod, (classifyOf current).1, (classifyOf current).2⟩)],
              s.page_count + 1, s.fetched ++ [current]⟩)))) := by
  unfold crawlStep at h
  split at h
  · exact absurd h (by simp)
  · rename_i current rest hv
    split at h
    · rename_i hcount
      refine ⟨current, rest, hv, hcount, ?_⟩
      split at h
      · rename_i hmem
        left
        cases h
        exact ⟨hmem, rfl⟩
      · rename_i hmem
        right
        split at h
        · rename_i hfetch
          left
          cases h
          exact ⟨hmem, hfetch, rfl⟩
        · rename_i resp hfetch
          right
          refine ⟨hmem, resp, hfetch, ?_⟩
          split at h
          · rename_i hhtml
            left
            cases h
            exact ⟨hhtml, rfl⟩
          · rename_i hhtml
            right
            cases h
            exact ⟨hhtml, rfl⟩
    · exact absurd h (by simp)

theorem crawlStep_inv (fetch : Url → Option Response) (max_pages : Nat) (root : Url)
    (s s2 : CrawlState) (h : crawlStep fetch max_pages s = some s2)
    (hinv : CrawlInv fetch max_pages root s) : CrawlInv fetch max_pages root s2 := by
  obtain ⟨h1, h2, h3, h4, h5, h6, h7, h8, h9⟩ := hinv
  obtain ⟨current, rest, hv, hcount, hcase⟩ := crawlStep_some_spec fetch max_pages s s2 h
  rcases hcase with ⟨hmem, rfl⟩ | ⟨hmem, hfetch, rfl⟩ | ⟨hmem, resp, hfetch, hsub⟩
  · -- already visited: only the queue shrinks
    refine ⟨h1, h2, h3, h4, h5, h6, h7, ?_, ?_⟩
    · intro v hvv r hr hh l hl
      rcases h8 v hvv r hr hh l hl with hl2 | hl2
      · exact Or.inl hl2
      · rw [hv] at hl2
        rcases List.mem_cons.mp hl2 with rfl | hl3
        · exact Or.inl hmem
        · exact Or.inr hl3
    · rcases h9 with hr0 | hr0
      · exact Or.inl hr0
      · rw [hv] at hr0
        rcases List.mem_cons.mp hr0 with rfl | hr1
        · exact Or.inl hmem
        · exact Or.inr hr1
  · -- fetch failed: URL visited and counted, nothing else changes
    refine ⟨?_, ?_, ?_, ?_, h5, h6, ?_, ?_, ?_⟩
    · simp [List.nodup_append, h1, hmem]
    · simp [h2]
    · rw [h3]
    · show s.page_count + 1 ≤ max_pages
      omega
    · intro k hk
      simp only [List.mem_append]
      exact Or.inl (h7 k hk)
    · intro v hvv r hr hh l hl
      simp only [List.mem_append, List.mem_singleton] at hvv
      rcases hvv with hvv | rfl
      · rcases h8 v hvv r hr hh l hl with hl2 | hl2
        · simp [hl2]
        · rw [hv] at hl2
          rcases List.mem_cons.mp hl2 with rfl | hl3
          · simp
          · exact Or.inr hl3
      · exact absurd hr (by simp [hfetch])
    · rcases h9 with hr0 | hr0
      · simp [hr0]
      · rw [hv] at hr0
        rcases List.mem_cons.mp hr0 with rfl | hr1
        · simp
        · exact Or.inr hr1
  · -- fetch succeeded: metadata recorded; links enqueued when HTML
    have hkeys : current ∉ s.url_metadata.map Prod.fst := fun hk => hmem (h7 current hk)
    have hmeta5 : ∀ p ∈ s.url_metadata ++
        [(current, (⟨resp.lastmod, (classifyOf current).1, (classifyOf current).2⟩ : Metadata))],
        fetch p.1 ≠ none := by
      intro p hp
      rcases List.mem_append.mp hp with hp | hp
      · exact h5 p hp
      · simp only [List.mem_singleton] at hp
        rw [hp]
        simp [hfetch]
    have hmeta6 : ((s.url_metadata ++
        [(current, (⟨resp.lastmod, (classifyOf current).1, (classifyOf current).2⟩ : Metadata))]).map
        Prod.fst).Nodup := by
      simp only [List.map_append, List.map_cons, List.map_nil]
      simp [List.nodup_append, h6, hkeys]
    have hmeta7 : ∀ k ∈ (s.url_metadata ++
        [(current, (⟨resp.lastmod, (classifyOf current).1, (classifyOf current).2⟩ : Metadata))]).map
        Prod.fst, k ∈ s.visited ++ [current] := by
      intro k hk
      simp only [List.map_append, List.map_cons, List.map_nil, List.mem_append,
        List.mem_singleton] at hk ⊢
      rcases hk with hk | hk
      · exact Or.inl (h7 k hk)
      · exact Or.inr hk
    rcases hsub with ⟨hhtml, rfl⟩ | ⟨hhtml, rfl⟩
    · -- HTML page: unvisited links are appended to the queue
      refine ⟨?_, ?_, ?_, ?_, hmeta5, hmeta6, hmeta7, ?_, ?_⟩
      · simp [List.nodup_append, h1, hmem]
      · simp [h2]
      · rw [h3]
      · show s.page_count + 1 ≤ max_pages
        omega
      · intro v hvv r hr hh l hl
        simp only [List.mem_append, List.mem_singleton] at hvv
        rcases hvv with hvv | hveq
        · rcases h8 v hvv r hr hh l hl with hl2 | hl2
          · simp [hl2]
          · rw [hv] at hl2
            rcases List.mem_cons.mp hl2 with rfl | hl3
            · simp
            · simp [hl3]
        · rw [hveq, hfetch] at hr
          injection hr with hr2
          by_cases hlv : l ∈ s.visited ++ [current]
          · exact Or.inl hlv
          · refine Or.inr ?_
            simp only [List.mem_append]
            right
            rw [List.mem_filter]
            refine ⟨?_, by simpa using hlv⟩
            rw [hr2]
            exact hl
      · rcases h9 with hr0 | hr0
        · simp [hr0]
        · rw [hv] at hr0
          rcases List.mem_cons.mp hr0 with rfl | hr1
          · simp
          · simp [hr1]
    · -- non-HTML response: no links extracted
      refine ⟨?_, ?_, ?_, ?_, hmeta5, hmeta6, hmeta7, ?_, ?_⟩
      · simp [List.nodup_append, h1, hmem]
      · simp [h2]
      · rw [h3]
      · show s.page_count + 1 ≤ max_pages
        omega
      · intro v hvv r hr hh l hl
        simp only [List.mem_append, List.mem_singleton] at hvv
        rcases hvv with hvv | hveq
        · rcases h8 v hvv r hr hh l hl with hl2 | hl2
          · simp [hl2]
          · rw [hv] at hl2
            rcases List.mem_cons.mp hl2 with rfl | hl3
            · simp
            · exact Or.inr hl3
        · rw [hveq] at hh
          rw [hveq, hfetch] at hr
          injection hr with hr2
          rw [← hr2] at hh
          exact absurd hh hhtml
      · rcases h9 with hr0 | hr0
        · simp [hr0]
        · rw [hv] at hr0
          rcases List.mem_cons.mp hr0 with rfl | hr1
          · simp
          · exact Or.inr hr1

theorem initState_inv (fetch : Url → Option Response) (max_pages : Nat) (base_url : Url) :
    CrawlInv fetch max_pages (normalize_url base_url) (initState base_url) := by
  refine ⟨by simp [initState], by simp [initState], by simp [initState],
    by simp [initState], ?_, by simp [initState], ?_, ?_, ?_⟩
  · intro p hp
    simp [initState] at hp
  · intro k hk
    simp [initState] at hk
  · intro v hvv
    simp [initState] at hvv
  · right
    simp [initState]

theorem crawlFinal_inv (fetch : Url → Option Response) (base_url : Url) (max_pages : Nat) :
    CrawlInv fetch max_pages (normalize_url base_url) (crawlFinal fetch base_url max_pages) :=
  crawlLoop_inv fetch max_pages (CrawlInv fetch max_pages (normalize_url base_url))
    (crawlStep_inv fetch max_pages (normalize_url base_url)) (initState base_url)
    (initState_inv fetch max_pages base_url)

theorem reaches_visited (fetch : Url → Option Response) (max_pages : Nat) (root : Url)
    (S : CrawlState) (hinv : CrawlInv fetch max_pages root S) (hstop : S.to_visit = []) :
    ∀ u, Reaches fetch root u → u ∈ S.visited := by
  intro u hr
  induction hr with
  | root =>
    rcases hinv.2.2.2.2.2.2.2.2 with h0 | h0
    · exact h0
    · rw [hstop] at h0
      simp at h0
  | step hr hf hh hl ih =>
    rename_i v u2 r
    rcases hinv.2.2.2.2.2.2.2.1 v ih r hf hh u2 hl with h0 | h0
    · exact h0
    · rw [hstop] at h0
      simp at h0

/-! ### Properties of the sitemap assembler -/

theorem chunks_eq (n : Nat) (l : List Url) :
    chunks n l = if l = [] ∨ n = 0 then [] else l.take n :: chunks n (l.drop n) := by
  rw [chunks]

theorem chunks_flatten (n : Nat) (hn : n ≠ 0) : ∀ l : List Url, (chunks n l).flatten = l := by
  intro l
  induction l using chunks.induct n with
  | case1 l h =>
    rcases h with rfl | h
    · rw [chunks_eq]
      simp
    · exact absurd h hn
  | case2 l h ih =>
    rw [chunks_eq, if_neg h]
    simp only [List.flatten_cons, ih]
    exact List.take_append_drop n l

theorem sitemapEntryFor_loc (md : List (Url × Metadata)) (u : Url) :
    (sitemapEntryFor md u).loc = u := by
  unfold sitemapEntryFor
  rcases lookupMeta u md with _ | m
  · rfl
  · rfl

theorem lookupMeta_eq_none (u : Url) (md : List (Url × Metadata))
    (h : u ∉ md.map Prod.fst) : lookupMeta u md = none := by
  induction md with
  | nil => rfl
  | cons p rest ih =>
    simp only [List.map_cons, List.mem_cons, not_or] at h
    rcases p with ⟨k, v⟩
    simp only [lookupMeta]
    rw [if_neg (fun e => h.1 (by simp [e])), ih h.2]

theorem generate_sitemap_locs (urls : List Url) (md : List (Url × Metadata)) :
    ((generate_sitemap urls md).flatten).map SitemapEntry.loc = sortUrls urls := by
  have hone : ∀ l : List Url, (generate_single_sitemap l md).map SitemapEntry.loc = l := by
    intro l
    unfold generate_single_sitemap
    rw [List.map_map]
    have : (SitemapEntry.loc ∘ sitemapEntryFor md) = id := by
      funext u
      exact sitemapEntryFor_loc md u
    rw [this, List.map_id]
  unfold generate_sitemap
  dsimp only
  split
  · simp only [List.flatten, List.append_nil]
    exact hone (sortUrls urls)
  · rw [show (fun c => generate_single_sitemap c md) = (List.map (sitemapEntryFor md)) from rfl]
    rw [← List.map_flatten]
    rw [chunks_flatten MAX_URLS_PER_SITEMAP (by simp [MAX_URLS_PER_SITEMAP]) (sortUrls urls)]
    have := hone (sortUrls urls)
    unfold generate_single_sitemap at this
    exact this

theorem sortUrls_perm (l : List Url) : (sortUrls l).Perm l :=
  List.perm_insertionSort _ l

theorem generate_sitemap_flatten (urls : List Url) (md : List (Url × Metadata)) :
    (generate_sitemap urls md).flatten = (sortUrls urls).map (sitemapEntryFor md) := by
  unfold generate_sitemap
  dsimp only
  split
  · simp only [List.flatten, List.append_nil]
    rfl
  · rw [show (fun c => generate_single_sitemap c md) = (List.map (sitemapEntryFor md)) from rfl]
    rw [← List.map_flatten]
    rw [chunks_flatten MAX_URLS_PER_SITEMAP (by simp [MAX_URLS_PER_SITEMAP]) (sortUrls urls)]

theorem countUrl_perm (u : Url) (l1 l2 : List Url) (h : l1.Perm l2) :
    countUrl u l1 = countUrl u l2 := by
  unfold countUrl
  exact (h.filter _).length_eq

theorem countUrl_le_one_of_nodup (u : Url) (l : List Url) (hnd : l.Nodup) :
    countUrl u l ≤ 1 := by
  induction l with
  | nil => simp [countUrl]
  | cons a as ih =>
    simp only [List.nodup_cons] at hnd
    unfold countUrl at ih ⊢
    rw [List.filter_cons]
    by_cases hau : a = u
    · rw [if_pos (by simp [hau])]
      have hnil : as.filter (fun x => decide (x = u)) = [] := by
        rw [List.filter_eq_nil_iff]
        intro b hb
        simp only [decide_eq_true_eq]
        intro hbu
        apply hnd.1
        rw [hau, ← hbu]
        exact hb
      rw [hnil]
      simp
    · rw [if_neg (by simp [hau])]
      exact ih hnd.2

theorem countUrl_eq_one_of_nodup_mem (u : Url) (l : List Url) (hnd : l.Nodup)
    (hu : u ∈ l) : countUrl u l = 1 := by
  have hle := countUrl_le_one_of_nodup u l hnd
  have hpos : 0 < countUrl u l := by
    unfold countUrl
    rw [List.length_pos]
    intro hnil
    have := List.filter_eq_nil_iff.mp hnil u hu
    simp at this
  omega

/-! ### The claims -/

/-- C1 counterexample: `is_same_origin` returns `true` for two URLs with the
same host and port but different schemes (`http` vs `https`), refuting the
claim that it returns `true` only when scheme, host and port all match. -/
theorem c1_counterexample :
    is_same_origin (s2l "http://x.com/page") (s2l "https://x.com") = true ∧
      (urlparseModel (s2l "http://x.com/page")).scheme ≠
        (urlparseModel (s2l "https://x.com")).scheme := by
  decide

/-- C1 (amended): `is_same_origin(url, origin)` returns `true` exactly when
the `netloc` (host+port) components of the two URLs coincide; the scheme is
ignored, so a same-host link with a different scheme IS admitted as
same-origin. -/
theorem c1_same_origin_is_netloc_equality (url origin : Url) :
    is_same_origin url origin = true ↔
      (urlparseModel url).netloc = (urlparseModel origin).netloc := by
  simp [is_same_origin]

/-- C1 witness: the amended theorem applied at a concrete http/https pair. -/
theorem c1_witness :
    is_same_origin (s2l "http://x.com/a") (s2l "https://x.com/b") = true :=
  (c1_same_origin_is_netloc_equality (s2l "http://x.com/a") (s2l "https://x.com/b")).mpr
    (by decide)

/-- C2: classification is a pure, deterministic function of the URL, given by
the first matching rule of: root path (`/` or empty) → 1.0/daily; path
containing `/d/` or `/view/` → 0.8/monthly; path containing `/agency/` or
`/category/` → 0.7/weekly; asset URL → 0.3/yearly; everything else →
0.5/monthly. -/
theorem c2_classify_cascade (u : Url) :
    ((urlparseModel u).path = s2l "/" ∨ (urlparseModel u).path = [] →
      classifyOf u = (1, s2l "daily")) ∧
    (¬((urlparseModel u).path = s2l "/" ∨ (urlparseModel u).path = []) →
      (containsSub (s2l "/d/") (urlparseModel u).path = true ∨
        containsSub (s2l "/view/") (urlparseModel u).path = true) →
      classifyOf u = (8/10, s2l "monthly")) ∧
    (¬((urlparseModel u).path = s2l "/" ∨ (urlparseModel u).path = []) →
      ¬(containsSub (s2l "/d/") (urlparseModel u).path = true ∨
        containsSub (s2l "/view/") (urlparseModel u).path = true) →
      (containsSub (s2l "/agency/") (urlparseModel u).path = true ∨
        containsSub (s2l "/category/") (urlparseModel u).path = true) →
      classifyOf u = (7/10, s2l "weekly")) ∧
    (¬((urlparseModel u).path = s2l "/" ∨ (urlparseModel u).path = []) →
      ¬(containsSub (s2l "/d/") (urlparseModel u).path = true ∨
        containsSub (s2l "/view/") (urlparseModel u).path = true) →
      ¬(containsSub (s2l "/agency/") (urlparseModel u).path = true ∨
        containsSub (s2l "/category/") (urlparseModel u).path = true) →
      is_asset_url u = true →
      classifyOf u = (3/10, s2l "yearly")) ∧
    (¬((urlparseModel u).path = s2l "/" ∨ (urlparseModel u).path = []) →
      ¬(containsSub (s2l "/d/") (urlparseModel u).path = true ∨
        containsSub (s2l "/view/") (urlparseModel u).path = true) →
      ¬(containsSub (s2l "/agency/") (urlparseModel u).path = true ∨
        containsSub (s2l "/category/") (urlparseModel u).path = true) →
      is_asset_url u = false →
      classifyOf u = (1/2, s2l "monthly")) := by
  unfold classifyOf
  dsimp only
  refine ⟨?_, ?_, ?_, ?_, ?_⟩
  · intro h1
    rw [if_pos h1]
  · intro h1 h2
    rw [if_neg h1, if_pos h2]
  · intro h1 h2 h3
    rw [if_neg h1, if_neg h2, if_pos h3]
  · intro h1 h2 h3 h4
    rw [if_neg h1, if_neg h2, if_neg h3, if_pos h4]
  · intro h1 h2 h3 h4
    rw [if_neg h1, if_neg h2, if_neg h3, if_neg (by simp [h4])]

/-- C2 witness: the cascade applied at `https://x.com/agency/5`. -/
theorem c2_witness :
    classifyOf (s2l "https://x.com/agency/5") = (7/10, s2l "weekly") :=
  (c2_classify_cascade (s2l "https://x.com/agency/5")).2.2.1 (by decide) (by decide) (by decide)

/-- C3 counterexample: `normalize_url` does not strip the trailing slash of
the non-root path `/about/`: the normalized form still ends in `/`. -/
theorem c3_counterexample :
    normalize_url (s2l "https://x.com/about/") = s2l "https://x.com/about/" ∧
      (urlparseModel (s2l "https://x.com/about/")).path ≠ s2l "/" ∧
      (urlparseModel (normalize_url (s2l "https://x.com/about/"))).path.getLast? =
        some chSlash := by
  decide

/-- C3 (amended): `normalize_url` strips only the fragment — scheme
(lower-cased by parsing), netloc, path, params and query of the normalized
URL are those of the input, so a path ending in `/` keeps its trailing slash
(it is NOT stripped, contrary to the original claim). -/
theorem c3_normalize_strips_fragment_only (u : Url) :
    urlparseModel (normalize_url u) = { urlparseModel u with fragment := [] } ∧
      ((urlparseModel u).path.getLast? = some chSlash →
        (urlparseModel (normalize_url u)).path.getLast? = some chSlash) := by
  refine ⟨urlparse_normalize u, ?_⟩
  intro h
  rw [urlparse_normalize u]
  exact h

/-- C3 witness: the amended theorem applied to `https://x.com/about/`. -/
theorem c3_witness :
    (urlparseModel (normalize_url (s2l "https://x.com/about/"))).path.getLast? =
      some chSlash :=
  (c3_normalize_strips_fragment_only (s2l "https://x.com/about/")).2 (by decide)

/-- C9: `normalize_url` is idempotent. -/
theorem c9_normalize_idempotent (u : Url) :
    normalize_url (normalize_url u) = normalize_url u := by
  show urlunparseModel { urlparseModel (normalize_url u) with fragment := [] } =
    normalize_url u
  rw [urlparse_normalize u]
  rfl

/-- C5: the crawl visits at most `max_pages` distinct canonical URLs, halts
exactly when the pending queue is empty or the budget is reached, and on a
link graph with more than `max_pages` reachable pages it visits exactly
`max_pages` distinct URLs. -/
theorem c5_budget_and_halting (fetch : Url → Option Response) (base_url : Url)
    (max_pages : Nat) :
    (crawlFinal fetch base_url max_pages).visited.Nodup ∧
    (crawlFinal fetch base_url max_pages).visited.length ≤ max_pages ∧
    ((crawlFinal fetch base_url max_pages).to_visit = [] ∨
      (crawlFinal fetch base_url max_pages).visited.length = max_pages) ∧
    (∀ L : List Url, L.Nodup → (∀ u ∈ L, Reaches fetch (normalize_url base_url) u) →
      max_pages < L.length →
      (crawlFinal fetch base_url max_pages).visited.length = max_pages) := by
  have hinv := crawlFinal_inv fetch base_url max_pages
  obtain ⟨h1, h2, h3, h4, h5, h6, h7, h8, h9⟩ := hinv
  have hstop : (crawlFinal fetch base_url max_pages).to_visit = [] ∨
      max_pages ≤ (crawlFinal fetch base_url max_pages).page_count :=
    crawlStep_none_spec fetch max_pages _
      (crawlLoop_final fetch max_pages (initState base_url))
  refine ⟨h1, by omega, ?_, ?_⟩
  · rcases hstop with hqe | hc
    · exact Or.inl hqe
    · right
      omega
  · intro L hLnd hLr hLlen
    rcases hstop with hqe | hc
    · exfalso
      have hsub : ∀ u ∈ L, u ∈ (crawlFinal fetch base_url max_pages).visited := by
        intro u hu
        exact reaches_visited fetch max_pages (normalize_url base_url) _
          ⟨h1, h2, h3, h4, h5, h6, h7, h8, h9⟩ hqe u (hLr u hu)
      have hcard : L.length ≤ (crawlFinal fetch base_url max_pages).visited.length := by
        have e1 : L.toFinset.card = L.length := List.toFinset_card_of_nodup hLnd
        have e2 : L.toFinset ⊆ (crawlFinal fetch base_url max_pages).visited.toFinset := by
          intro x hx
          rw [List.mem_toFinset] at hx ⊢
          exact hsub x hx
        calc L.length = L.toFinset.card := e1.symm
          _ ≤ (crawlFinal fetch base_url max_pages).visited.toFinset.card :=
            Finset.card_le_card e2
          _ ≤ (crawlFinal fetch base_url max_pages).visited.length :=
            List.toFinset_card_le _
      omega
    · omega

/-- C5 witness: a two-page site crawled with `max_pages = 1` visits exactly
one URL. -/
theorem c5_witness :
    (crawlFinal twoPageFetch (s2l "https://x.com/") 1).visited.length = 1 := by
  have hroot : normalize_url (s2l "https://x.com/") = s2l "https://x.com/" := by decide
  apply (c5_budget_and_halting twoPageFetch (s2l "https://x.com/") 1).2.2.2
    [s2l "https://x.com/", s2l "https://x.com/a"]
  · decide
  · intro u hu
    rcases List.mem_cons.mp hu with rfl | hu2
    · rw [hroot]
      exact Reaches.root
    · rcases List.mem_cons.mp hu2 with rfl | hu3
      · refine Reaches.step (r := ⟨none, true, [s2l "https://x.com/a"]⟩) Reaches.root ?_ ?_ ?_
        · rw [hroot]
          decide
        · rw [hroot]
          decide
        · decide
      · simp at hu3
  · decide

/-- C6: in any run, the external fetcher is invoked at most once per
canonical URL (the fetch log has no duplicates), the visited set has no
repeated canonical URL, and each URL's metadata record is created at most
once and never overwritten (the metadata keys are duplicate-free, and records
are only ever appended). -/
theorem c6_no_duplicate_visits (fetch : Url → Option Response) (base_url : Url)
    (max_pages : Nat) :
    (crawlFinal fetch base_url max_pages).fetched.Nodup ∧
    (crawlFinal fetch base_url max_pages).visited.Nodup ∧
    ((crawlFinal fetch base_url max_pages).url_metadata.map Prod.fst).Nodup := by
  have hinv := crawlFinal_inv fetch base_url max_pages
  obtain ⟨h1, -, h3, -, -, h6, -, -, -⟩ := hinv
  exact ⟨by rw [h3]; exact h1, h1, h6⟩

/-- C7 counterexample: with a seed linking to `/a` and `/b`, both of which
link to `/c`, the pending queue holds `/c` twice after three iterations —
the enqueue check does not consult the pending queue, refuting the claimed
no-duplicates-in-pending invariant. -/
theorem c7_counterexample :
    (crawlStepsN dupFetch 10 3 (initState (s2l "https://x.com/"))).to_visit =
      [s2l "https://x.com/c", s2l "https://x.com/c"] ∧
    ¬ (crawlStepsN dupFetch 10 3 (initState (s2l "https://x.com/"))).to_visit.Nodup := by
  decide

/-- C7 (amended): a newly discovered URL is enqueued only if it is not in the
visited set — the pending queue is NOT consulted, so it may contain
duplicates; a duplicate is discarded at dequeue time by the visited check
(popping an already-visited URL changes nothing but the queue). -/
theorem c7_enqueue_checks_visited_only (fetch : Url → Option Response)
    (max_pages : Nat) (s s2 : CrawlState)
    (h : crawlStep fetch max_pages s = some s2) :
    (∀ l ∈ s2.to_visit, l ∈ s.to_visit ∨ l ∉ s2.visited) ∧
    (∀ current rest, s.to_visit = current :: rest → current ∈ s.visited →
      s2 = { s with to_visit := rest }) := by
  obtain ⟨current, rest, hv, hcount, hcase⟩ := crawlStep_some_spec fetch max_pages s s2 h
  constructor
  · intro l hl
    rcases hcase with ⟨hmem, rfl⟩ | ⟨hmem, hfetch, rfl⟩ | ⟨hmem, resp, hfetch, hsub⟩
    · exact Or.inl (by rw [hv]; simp [hl])
    · exact Or.inl (by rw [hv]; simp at hl ⊢; simp [hl])
    · rcases hsub with ⟨hhtml, rfl⟩ | ⟨hhtml, rfl⟩
      · simp only [List.mem_append] at hl
        rcases hl with hl | hl
        · exact Or.inl (by rw [hv]; simp [hl])
        · rw [List.mem_filter] at hl
          right
          simpa using hl.2
      · exact Or.inl (by rw [hv]; simp at hl ⊢; simp [hl])
  · intro current2 rest2 hv2 hmem2
    rw [hv] at hv2
    injection hv2 with he1 he2
    subst he1 he2
    rcases hcase with ⟨-, rfl⟩ | ⟨hmem, -, -⟩ | ⟨hmem, -⟩
    · rfl
    · exact absurd hmem2 hmem
    · exact absurd hmem2 hmem

/-- C7 witness: the amended theorem applied to a concrete skip step. -/
theorem c7_witness :
    (s2l "https://x.com/b") ∈ ([s2l "https://x.com/a", s2l "https://x.com/b"] : List Url) ∨
      (s2l "https://x.com/b") ∉ ([s2l "https://x.com/a"] : List Url) :=
  ((c7_enqueue_checks_visited_only failFetch 5
      ⟨[s2l "https://x.com/a"], [s2l "https://x.com/a", s2l "https://x.com/b"], [], 1,
        [s2l "https://x.com/a"]⟩
      ⟨[s2l "https://x.com/a"], [s2l "https://x.com/b"], [], 1, [s2l "https://x.com/a"]⟩
      (by decide)).1) (s2l "https://x.com/b") (by decide)

/-- C8: a URL whose fetch fails is never fetched again in the same run (it
occurs at most once in the fetch log) and is absent from the final metadata
map. -/
theorem c8_fetch_failure_skipped (fetch : Url → Option Response) (base_url : Url)
    (max_pages : Nat) (u : Url) (h : fetch u = none) :
    u ∉ ((crawlFinal fetch base_url max_pages).url_metadata.map Prod.fst) ∧
    lookupMeta u (crawlFinal fetch base_url max_pages).url_metadata = none ∧
    countUrl u (crawlFinal fetch base_url max_pages).fetched ≤ 1 := by
  have hinv := crawlFinal_inv fetch base_url max_pages
  obtain ⟨h1, -, h3, -, h5, -, -, -, -⟩ := hinv
  have hk : u ∉ ((crawlFinal fetch base_url max_pages).url_metadata.map Prod.fst) := by
    intro hk
    rw [List.mem_map] at hk
    obtain ⟨p, hp, hpe⟩ := hk
    exact h5 p hp (by rw [hpe, h])
  refine ⟨hk, lookupMeta_eq_none u _ hk, ?_⟩
  have hnd : (crawlFinal fetch base_url max_pages).fetched.Nodup := by
    rw [h3]
    exact h1
  exact countUrl_le_one_of_nodup u _ hnd

/-- C8 witness: the theorem applied to an always-failing fetcher. -/
theorem c8_witness :
    lookupMeta (s2l "https://x.com/")
      (crawlFinal failFetch (s2l "https://x.com/") 5).url_metadata = none :=
  (c8_fetch_failure_skipped failFetch (s2l "https://x.com/") 5 (s2l "https://x.com/") rfl).2.1

/-- C10: a visited URL whose fetch failed still consumed one unit of budget
(`page_count` counts every visited URL, failures included), was handed to the
fetcher, and — because serialization iterates the visited set with
`url_metadata.get(url, {})` — is emitted as a `<url>` entry whose `<loc>` is
the URL and which has no lastmod, changefreq or priority children. -/
theorem c10_failed_fetch_still_emitted (fetch : Url → Option Response) (base_url : Url)
    (max_pages : Nat) (u : Url) (hf : fetch u = none)
    (hv : u ∈ (crawlFinal fetch base_url max_pages).visited) :
    (crawlFinal fetch base_url max_pages).page_count =
      (crawlFinal fetch base_url max_pages).visited.length ∧
    u ∈ (crawlFinal fetch base_url max_pages).fetched ∧
    sitemapEntryFor (crawlFinal fetch base_url max_pages).url_metadata u =
      ⟨u, none, none, none⟩ ∧
    (⟨u, none, none, none⟩ : SitemapEntry) ∈
      (generate_sitemap (crawlFinal fetch base_url max_pages).visited
        (crawlFinal fetch base_url max_pages).url_metadata).flatten := by
  have hinv := crawlFinal_inv fetch base_url max_pages
  obtain ⟨h1, h2, h3, h4, h5, h6, h7, h8, h9⟩ := hinv
  have hk : u ∉ ((crawlFinal fetch base_url max_pages).url_metadata.map Prod.fst) := by
    intro hk
    rw [List.mem_map] at hk
    obtain ⟨p, hp, hpe⟩ := hk
    exact h5 p hp (by rw [hpe, hf])
  have hentry : sitemapEntryFor (crawlFinal fetch base_url max_pages).url_metadata u =
      ⟨u, none, none, none⟩ := by
    unfold sitemapEntryFor
    rw [lookupMeta_eq_none u _ hk]
  refine ⟨h2, by rw [h3]; exact hv, hentry, ?_⟩
  rw [generate_sitemap_flatten]
  rw [← hentry]
  exact List.mem_map_of_mem _ (((sortUrls_perm _).mem_iff).mpr hv)

/-- C10 witness: with an always-failing fetcher, the seed still appears as a
bare `<loc>` entry of the sitemap. -/
theorem c10_witness :
    (⟨s2l "https://x.com/", none, none, none⟩ : SitemapEntry) ∈
      (generate_sitemap (crawlFinal failFetch (s2l "https://x.com/") 5).visited
        (crawlFinal failFetch (s2l "https://x.com/") 5).url_metadata).flatten := by
  have e1 : crawlStep failFetch 5 (initState (s2l "https://x.com/")) =
      some ⟨[s2l "https://x.com/"], [], [], 1, [s2l "https://x.com/"]⟩ := by decide
  have e2 : crawlStep failFetch 5
      (⟨[s2l "https://x.com/"], [], [], 1, [s2l "https://x.com/"]⟩ : CrawlState) = none := by
    decide
  have efin : crawlFinal failFetch (s2l "https://x.com/") 5 =
      ⟨[s2l "https://x.com/"], [], [], 1, [s2l "https://x.com/"]⟩ := by
    unfold crawlFinal
    rw [crawlLoop_some _ _ _ _ e1, crawlLoop_none _ _ _ e2]
  have hv : (s2l "https://x.com/") ∈ (crawlFinal failFetch (s2l "https://x.com/") 5).visited := by
    rw [efin]
    simp
  exact (c10_failed_fetch_still_emitted failFetch (s2l "https://x.com/") 5
    (s2l "https://x.com/") rfl hv).2.2.2

/-- C4 counterexample: the assembler serializes every URL of the visited set,
including URLs absent from the metadata map (e.g. failed fetches), so a
`<loc>` value need not be a metadata key: with URL set `{https://x.com/fail}`
and an empty metadata map, the `<loc>` appears but is no key. -/
theorem c4_counterexample :
    (s2l "https://x.com/fail") ∈
      ((generate_sitemap [s2l "https://x.com/fail"]
        ([] : List (Url × Metadata))).flatten).map SitemapEntry.loc ∧
    (s2l "https://x.com/fail") ∉ (([] : List (Url × Metadata)).map Prod.fst) := by
  constructor
  · rw [generate_sitemap_locs]
    decide
  · simp

/-- C4 (amended): for every URL set and metadata map given to the assembler,
every `<loc>` value of the serialized output is a member of the URL set, and
every member of the URL set appears exactly once across all produced shards
(metadata keys outside the URL set are not emitted at all). -/
theorem c4_locs_partition_urls (urls : List Url) (md : List (Url × Metadata))
    (hnd : urls.Nodup) :
    (∀ u : Url, u ∈ ((generate_sitemap urls md).flatten).map SitemapEntry.loc ↔ u ∈ urls) ∧
    (∀ u ∈ urls,
      countUrl u (((generate_sitemap urls md).flatten).map SitemapEntry.loc) = 1) := by
  rw [generate_sitemap_locs]
  constructor
  · intro u
    exact (sortUrls_perm urls).mem_iff
  · intro u hu
    rw [countUrl_perm u _ _ (sortUrls_perm urls)]
    exact countUrl_eq_one_of_nodup_mem u urls hnd hu

/-- C4 witness: the amended round-trip at a singleton URL set. -/
theorem c4_witness :
    countUrl (s2l "https://x.com/a")
      (((generate_sitemap [s2l "https://x.com/a"]
        ([] : List (Url × Metadata))).flatten).map SitemapEntry.loc) = 1 :=
  (c4_locs_partition_urls [s2l "https://x.com/a"] [] (by decide)).2
    (s2l "https://x.com/a") (by decide)
